import Mathlib

/-!
Shallow embedding of the workflow-analytics pipeline of app.py:
data cleaning and enrichment, the sidebar inclusion filter, the KPI and
trend/workload aggregations, and the rule-based insight engine.

Modelling conventions: float columns are rationals; columns that can
carry a pandas missing value are Option types; a DataFrame is a list of
record structures; an uncaught Python exception is Except.error.
Timestamps are seconds since an epoch, so taking the calendar date
(Series.dt.date) is integer division by 86400.
-/

/-- A raw row of the source table after the loader parsed the timestamp
columns.  Approval_Level and the two duration columns may be missing;
none models a pandas NaN in those columns. -/
structure RawRecord where
  startTime : Nat
  endTime : Nat
  department : String
  priorityLevel : String
  assignedEmployee : String
  approvalLevel : Option String
  estimatedDuration : Option ℚ
  actualDuration : Option ℚ
  costPerTask : ℚ
deriving DecidableEq

/-- An enriched row: the raw columns after fillna on Approval_Level,
plus the three derived columns computed by the cleaning block. -/
structure Record where
  startTime : Nat
  endTime : Nat
  department : String
  priorityLevel : String
  assignedEmployee : String
  approvalLevel : String
  estimatedDuration : Option ℚ
  actualDuration : Option ℚ
  costPerTask : ℚ
  employeeIdNumber : Option String
  durationDifference : Option ℚ
  delayFlag : String
deriving DecidableEq

/-- The inclusive code-point ranges of the Unicode decimal digits
(category Nd): the characters the digit class of a Python regular
expression matches on a str pattern without the ASCII flag, read off
the Unicode database Python ships. -/
def reDigitRanges : List (Nat × Nat) :=
  [(48, 57), (1632, 1641), (1776, 1785), (1984, 1993), (2406, 2415),
   (2534, 2543), (2662, 2671), (2790, 2799), (2918, 2927), (3046, 3055),
   (3174, 3183), (3302, 3311), (3430, 3439), (3558, 3567), (3664, 3673),
   (3792, 3801), (3872, 3881), (4160, 4169), (4240, 4249), (6112, 6121),
   (6160, 6169), (6470, 6479), (6608, 6617), (6784, 6793), (6800, 6809),
   (6992, 7001), (7088, 7097), (7232, 7241), (7248, 7257), (42528, 42537),
   (43216, 43225), (43264, 43273), (43472, 43481), (43504, 43513),
   (43600, 43609), (44016, 44025), (65296, 65305), (66720, 66729),
   (68912, 68921), (69734, 69743), (69872, 69881), (69942, 69951),
   (70096, 70105), (70384, 70393), (70736, 70745), (70864, 70873),
   (71248, 71257), (71360, 71369), (71472, 71481), (71904, 71913),
   (72016, 72025), (72784, 72793), (73040, 73049), (73120, 73129),
   (92768, 92777), (92864, 92873), (93008, 93017), (120782, 120831),
   (123200, 123209), (123632, 123641), (125264, 125273), (130032, 130041)]

/-- Membership of a character in the digit class of the regular
expression applied to Assigned_Employee: any Unicode decimal digit,
not only the ASCII ones. -/
def isReDigit (c : Char) : Bool :=
  reDigitRanges.any fun r => r.1 ≤ c.toNat && c.toNat ≤ r.2

/-- All maximal runs of decimal digits in a character list, in order:
the semantics of re.findall with the digit-run pattern used on
Assigned_Employee. -/
def digitRuns : List Char → List (List Char)
  | [] => []
  | c :: cs =>
    if isReDigit c then
      (c :: cs.takeWhile isReDigit) :: digitRuns (cs.dropWhile isReDigit)
    else
      digitRuns cs
termination_by l => l.length
decreasing_by
  · simp only [List.length_cons]
    exact Nat.lt_succ_of_le (List.dropWhile_sublist _).length_le
  · simp

/-- Employee_ID_Number extraction: the first digit run found in
Assigned_Employee, or none when the string holds no digit. -/
def extractEmployeeId (s : String) : Option String :=
  (digitRuns s.data).head?.map fun run => String.mk run

/-- Duration_Difference column: Actual_Duration minus
Estimated_Duration; a missing operand gives a missing difference. -/
def durationDiff (raw : RawRecord) : Option ℚ :=
  match raw.actualDuration, raw.estimatedDuration with
  | some a, some e => some (a - e)
  | _, _ => none

/-- Delay_Flag column, np.where on the difference: a missing difference
compares as not greater than zero, hence On-Time. -/
def delayFlagOf (d : Option ℚ) : String :=
  match d with
  | some x => if x > 0 then "Delayed" else "On-Time"
  | none => "On-Time"

/-- The cleaning and transformation block applied to one row. -/
def enrich (raw : RawRecord) : Record :=
  { startTime := raw.startTime
    endTime := raw.endTime
    department := raw.department
    priorityLevel := raw.priorityLevel
    assignedEmployee := raw.assignedEmployee
    approvalLevel := raw.approvalLevel.getD "Not Required"
    estimatedDuration := raw.estimatedDuration
    actualDuration := raw.actualDuration
    costPerTask := raw.costPerTask
    employeeIdNumber := extractEmployeeId raw.assignedEmployee
    durationDifference := durationDiff raw
    delayFlag := delayFlagOf (durationDiff raw) }

/-- The cleaning block over the whole table: pandas column operations
act row by row. -/
def enrichAll (raws : List RawRecord) : List Record :=
  raws.map enrich

/-- The three multiselect filter values chosen in the sidebar. -/
structure FilterSelection where
  departments : List String
  priorities : List String
  delayStatuses : List String
deriving DecidableEq

/-- Series.isin: the boolean mask of a column against a selection. -/
def isinMask (col : List String) (sel : List String) : List Bool :=
  col.map fun v => sel.contains v

/-- Pointwise conjunction of two boolean masks. -/
def andMask (m1 m2 : List Bool) : List Bool :=
  List.zipWith and m1 m2

/-- Boolean-mask row selection, df followed by a mask in brackets. -/
def selectRows (rs : List Record) (mask : List Bool) : List Record :=
  (rs.zip mask).filterMap fun p => if p.2 then some p.1 else none

/-- filtered_df: conjunction of the three isin masks applied to df. -/
def filteredDf (rs : List Record) (sel : FilterSelection) : List Record :=
  selectRows rs
    (andMask
      (andMask (isinMask (rs.map fun r => r.department) sel.departments)
        (isinMask (rs.map fun r => r.priorityLevel) sel.priorities))
      (isinMask (rs.map fun r => r.delayFlag) sel.delayStatuses))

/-- The membership predicate the spec says the filter implements: each
of the three columns is a member of its selection set. -/
def recordPasses (sel : FilterSelection) (r : Record) : Bool :=
  sel.departments.contains r.department &&
    sel.priorities.contains r.priorityLevel &&
    sel.delayStatuses.contains r.delayFlag

/-- Number of rows flagged Delayed. -/
def delayedCount (rs : List Record) : Nat :=
  (rs.filter fun r => r.delayFlag == "Delayed").length

/-- The Delay percent KPI: value_counts(normalize=True) then get with
default 0, times 100.  On an empty frame the get default applies. -/
def delayPercentage (rs : List Record) : ℚ :=
  if rs.length = 0 then 0 else (delayedCount rs : ℚ) / rs.length * 100

/-- Lexicographic code-point comparison of character lists: the order
by which pandas sorts string group keys. -/
def charListLe : List Char → List Char → Bool
  | [], _ => true
  | _ :: _, [] => false
  | a :: as, b :: bs =>
    if a < b then true else if b < a then false else charListLe as bs

/-- String comparison by code points. -/
def strLe (a b : String) : Bool :=
  charListLe a.data b.data

/-- Group keys of DataFrame.groupby on a string column: the distinct
values in ascending order (groupby sorts keys). -/
def groupKeys (col : List String) : List String :=
  List.insertionSort (fun a b => strLe a b = true) col.dedup

/-- Group keys of a groupby on the derived date column. -/
def groupKeysNat (col : List Nat) : List Nat :=
  List.insertionSort (fun a b => a ≤ b) col.dedup

/-- Mean of Cost_Per_Task within one department group. -/
def deptMeanCost (rs : List Record) (dept : String) : ℚ :=
  let g := rs.filter fun r => r.department == dept
  (g.map fun r => r.costPerTask).sum / g.length

/-- Sum of Actual_Duration within one employee group.  Pandas sum skips
missing values, which coincides with adding zero for them. -/
def employeeTotalDuration (rs : List Record) (emp : String) : ℚ :=
  ((rs.filter fun r => r.assignedEmployee == emp).map fun r =>
    r.actualDuration.getD 0).sum

/-- Scan of Series.idxmax: keep the current best key, replacing it only
on a strictly larger value, so the first maximum wins. -/
def idxmaxGo (f : String → ℚ) : String → List String → String
  | best, [] => best
  | best, k :: ks => idxmaxGo f (if f k > f best then k else best) ks

/-- Series.idxmax over a series given as its (ascending) key list and
value function: the first key attaining the maximum; none models the
ValueError pandas raises on an empty series. -/
def idxmaxBy (f : String → ℚ) : List String → Option String
  | [] => none
  | k :: ks => some (idxmaxGo f k ks)

/-- Delay rate used by insight rule 1: mean of the Delayed indicator;
none models the NaN that the mean of an empty series produces. -/
def delayRate (rs : List Record) : Option ℚ :=
  if rs.length = 0 then none else some ((delayedCount rs : ℚ) / rs.length)

/-- Rule 1 condition, delay_rate greater than 0.3; the NaN of an empty
frame compares false. -/
def rule1Fires (rs : List Record) : Bool :=
  match delayRate rs with
  | some q => decide (q > 3 / 10)
  | none => false

/-- Rule 4 condition: some row is High priority and Delayed. -/
def rule4Fires (rs : List Record) : Bool :=
  decide (0 < (rs.filter fun r =>
    r.priorityLevel == "High" && r.delayFlag == "Delayed").length)

def rule1Msg : String :=
  "⚠ High delay rate detected. Consider redistributing workload or revising time estimation models."

def rule2Msg (dept : String) : String :=
  "💰 " ++ dept ++ " department shows highest average cost per task. Audit cost drivers."

def rule3Msg (emp : String) : String :=
  "👨‍💼 " ++ emp ++ " appears overloaded. Workload balancing recommended."

def rule4Msg : String :=
  "🚨 High priority tasks are being delayed. Escalation policy review suggested."

/-- The department picked by rule 2, groupby Department then mean of
Cost_Per_Task then idxmax. -/
def highCostDept (rs : List Record) : Option String :=
  idxmaxBy (deptMeanCost rs) (groupKeys (rs.map fun r => r.department))

/-- The employee picked by rule 3, groupby Assigned_Employee then sum
of Actual_Duration then idxmax. -/
def overloadedEmp (rs : List Record) : Option String :=
  idxmaxBy (employeeTotalDuration rs) (groupKeys (rs.map fun r => r.assignedEmployee))

/-- generate_insights: the fixed rule sequence over the filtered frame.
Except.error models the uncaught ValueError that Series.idxmax raises
on an empty series. -/
def generateInsights (rs : List Record) : Except String (List String) :=
  let r1 : List String := if rule1Fires rs then [rule1Msg] else []
  match highCostDept rs with
  | none => Except.error "attempt to get argmax of an empty sequence"
  | some dept =>
    match overloadedEmp rs with
    | none => Except.error "attempt to get argmax of an empty sequence"
    | some emp =>
      Except.ok (r1 ++ [rule2Msg dept] ++ [rule3Msg emp] ++
        (if rule4Fires rs then [rule4Msg] else []))

/-- workload_df: groupby Assigned_Employee, sum of Actual_Duration;
reset_index leaves the rows in ascending employee order. -/
def workloadDf (rs : List Record) : List (String × ℚ) :=
  (groupKeys (rs.map fun r => r.assignedEmployee)).map fun e =>
    (e, employeeTotalDuration rs e)

/-- sort_values on the duration column with ascending False: pandas
reverses an ascending argsort (numpy quicksort, which runs as a stable
insertion sort on the small arrays at issue), modelled as the reverse
of a stable ascending sort by the value column. -/
def sortByDurationDesc (l : List (String × ℚ)) : List (String × ℚ) :=
  (List.insertionSort (fun a b => a.2 ≤ b.2) l).reverse

/-- The workload ranking: descending sort then head with the top-n
bound (the page hardcodes ten; the bound is kept as a parameter). -/
def workloadByEmployee (rs : List Record) (topN : Nat) : List (String × ℚ) :=
  (sortByDurationDesc (workloadDf rs)).take topN

/-- The calendar date of a row, Start_Time.dt.date. -/
def dateOf (r : Record) : Nat :=
  r.startTime / 86400

/-- One cell of the unstacked trend table: the count of rows of a date
carrying a flag value; a combination with no rows is the zero that
fillna writes over NaN. -/
def trendCell (rs : List Record) (d : Nat) (f : String) : Nat :=
  (rs.filter fun r => dateOf r == d && r.delayFlag == f).length

/-- trend_df: groupby the date of Start_Time, value_counts of
Delay_Flag, unstack, fillna(0).  Rows are the distinct dates present;
columns are the distinct flag values present anywhere in the frame. -/
def trendDf (rs : List Record) : List (Nat × List (String × Nat)) :=
  (groupKeysNat (rs.map dateOf)).map fun d =>
    (d, (groupKeys (rs.map fun r => r.delayFlag)).map fun f => (f, trendCell rs d f))

/-! ### Sample rows used to instantiate theorems on concrete inputs -/

/-- A sample consistent enriched row. -/
def mkRow (dept pri emp flag : String) (cost dur : ℚ) (t : Nat) : Record :=
  { startTime := t
    endTime := t
    department := dept
    priorityLevel := pri
    assignedEmployee := emp
    approvalLevel := "Not Required"
    estimatedDuration := some 0
    actualDuration := some dur
    costPerTask := cost
    employeeIdNumber := none
    durationDifference := some dur
    delayFlag := flag }

/-- A second sample row with other category values. -/
def rowIT : Record := mkRow "IT" "Low" "B" "On-Time" 20 0 86400

/-- A sample Ops row. -/
def rowOps : Record := mkRow "Ops" "High" "A" "Delayed" 10 5 0

/-- Employee A with total duration 30. -/
def rowA30 : Record := mkRow "Ops" "Low" "A" "On-Time" 1 30 0

/-- Employee B with total duration 30. -/
def rowB30 : Record := mkRow "Ops" "Low" "B" "On-Time" 1 30 0

/-- Employee B with total duration 50. -/
def rowB50 : Record := mkRow "Ops" "Low" "B" "On-Time" 1 50 0

/-- Employee C with total duration 10. -/
def rowC10 : Record := mkRow "Ops" "Low" "C" "On-Time" 1 10 0

/-! ### Claim theorems -/

/-- C4: the Enrichment Stage returns one enriched row per input row, in
the same order; no row is dropped or added, whatever the field
contents. -/
theorem enrichAll_length_and_order (raws : List RawRecord) :
    (enrichAll raws).length = raws.length ∧
      ∀ i : Nat, (enrichAll raws)[i]? = (raws[i]?).map enrich := by
  refine ⟨List.length_map _ _, fun i => ?_⟩
  simp [enrichAll]

/-- C2: a row is flagged Delayed exactly when its duration difference
is computable and strictly positive; in every other case, a zero
difference and a missing difference included, the flag is On-Time. -/
theorem delayFlag_iff_positive_difference (raw : RawRecord) :
    ((enrich raw).delayFlag = "Delayed" ↔
      ∃ d : ℚ, (enrich raw).durationDifference = some d ∧ 0 < d) ∧
    ((enrich raw).delayFlag ≠ "Delayed" → (enrich raw).delayFlag = "On-Time") := by
  have hflag : (enrich raw).delayFlag = delayFlagOf (durationDiff raw) := rfl
  have hdiff : (enrich raw).durationDifference = durationDiff raw := rfl
  rw [hflag, hdiff]
  cases h : durationDiff raw with
  | none =>
    simp only [delayFlagOf]
    constructor
    · constructor
      · intro hc
        exact absurd hc (by decide)
      · rintro ⟨d, hd, _⟩
        exact absurd hd (by simp)
    · intro _
      trivial
  | some x =>
    simp only [delayFlagOf]
    by_cases hx : x > 0
    · rw [if_pos hx]
      exact ⟨⟨fun _ => ⟨x, rfl, hx⟩, fun _ => rfl⟩, fun hc => absurd rfl hc⟩
    · rw [if_neg hx]
      refine ⟨⟨fun hc => absurd hc (by decide), fun ⟨d, hd, hdpos⟩ => ?_⟩, fun _ => rfl⟩
      cases Option.some.inj hd
      exact absurd hdpos hx

/-- C5: the Delay percent KPI lies in the interval from 0 to 100, is 0
on an empty frame rather than a division error, is 100 when every row
is Delayed, and otherwise is the Delayed proportion as a percentage. -/
theorem delayPercentage_in_range (rs : List Record) :
    (0 ≤ delayPercentage rs ∧ delayPercentage rs ≤ 100) ∧
    (rs = [] → delayPercentage rs = 0) ∧
    (rs ≠ [] → (∀ r ∈ rs, r.delayFlag = "Delayed") → delayPercentage rs = 100) ∧
    (rs ≠ [] → delayPercentage rs = (delayedCount rs : ℚ) / rs.length * 100) := by
  by_cases hnil : rs = []
  · subst hnil
    have h0 : delayPercentage [] = 0 := rfl
    rw [h0]
    exact ⟨⟨le_refl 0, by norm_num⟩, fun _ => rfl, fun h => absurd rfl h, fun h => absurd rfl h⟩
  · have hlen : 0 < rs.length := List.length_pos.mpr hnil
    have hlenq : (0 : ℚ) < rs.length := by exact_mod_cast hlen
    have hval : delayPercentage rs = (delayedCount rs : ℚ) / rs.length * 100 := by
      rw [delayPercentage, if_neg (Nat.pos_iff_ne_zero.mp hlen)]
    have hcount : delayedCount rs ≤ rs.length := List.length_filter_le _ rs
    refine ⟨⟨?_, ?_⟩, fun h => absurd h hnil, fun _ hall => ?_, fun _ => hval⟩
    · rw [hval]
      positivity
    · rw [hval]
      have h1 : (delayedCount rs : ℚ) / rs.length ≤ 1 := by
        rw [div_le_one hlenq]
        exact_mod_cast hcount
      nlinarith
    · rw [hval]
      have heq : delayedCount rs = rs.length := by
        unfold delayedCount
        rw [List.filter_eq_self.mpr, ]
        intro a ha
        exact beq_iff_eq.mpr (hall a ha)
      rw [heq]
      field_simp

/-- Witness for C5 at concrete inputs: a single Delayed row gives 100,
the empty frame gives 0. -/
theorem delayPercentage_in_range_witness :
    delayPercentage [mkRow "Ops" "High" "A" "Delayed" 1 5 0] = 100 ∧
      delayPercentage [] = 0 := by
  constructor
  · exact (delayPercentage_in_range [mkRow "Ops" "High" "A" "Delayed" 1 5 0]).2.2.1
      (by decide) (by decide)
  · exact (delayPercentage_in_range []).2.1 rfl

/-- The boolean-mask selection of filtered_df agrees with a plain
filter by the conjunction of the three memberships. -/
theorem filteredDf_eq_filter : ∀ (rs : List Record) (sel : FilterSelection),
    filteredDf rs sel = rs.filter (recordPasses sel)
  | [], _ => rfl
  | r :: rs, sel => by
    have ih := filteredDf_eq_filter rs sel
    simp only [filteredDf, isinMask, andMask, selectRows, List.map_cons,
      List.zipWith_cons_cons, List.zip_cons_cons, List.filterMap_cons] at ih ⊢
    rw [List.filter_cons]
    cases hd : sel.departments.contains r.department <;>
      cases hp : sel.priorities.contains r.priorityLevel <;>
        cases hf : sel.delayStatuses.contains r.delayFlag <;>
          simp only [recordPasses, hd, hp, hf, Bool.and_false, Bool.and_true,
            Bool.false_and, Bool.true_and, ite_true, ite_false, if_pos, if_neg,
            Bool.false_eq_true, reduceIte] <;>
          rw [ih]

/-- C3: the Filter Engine keeps exactly the rows whose department,
priority and delay flag are members of the respective selection sets;
an empty selection on any dimension gives an empty result, and
selecting every distinct observed value on all three dimensions gives
back the input unchanged. -/
theorem filter_engine_spec (rs : List Record) (sel : FilterSelection) :
    filteredDf rs sel = rs.filter (recordPasses sel) ∧
    ((sel.departments = [] ∨ sel.priorities = [] ∨ sel.delayStatuses = []) →
      filteredDf rs sel = []) ∧
    (sel.departments = (rs.map fun r => r.department).dedup →
      sel.priorities = (rs.map fun r => r.priorityLevel).dedup →
      sel.delayStatuses = (rs.map fun r => r.delayFlag).dedup →
      filteredDf rs sel = rs) := by
  refine ⟨filteredDf_eq_filter rs sel, fun hempty => ?_, fun h1 h2 h3 => ?_⟩
  · rw [filteredDf_eq_filter]
    apply List.filter_eq_nil_iff.mpr
    intro r _
    rcases hempty with h | h | h <;> simp [recordPasses, h]
  · rw [filteredDf_eq_filter]
    apply List.filter_eq_self.mpr
    intro r hr
    have hd : r.department ∈ sel.departments := by
      rw [h1, List.mem_dedup]
      exact List.mem_map_of_mem _ hr
    have hp : r.priorityLevel ∈ sel.priorities := by
      rw [h2, List.mem_dedup]
      exact List.mem_map_of_mem _ hr
    have hf : r.delayFlag ∈ sel.delayStatuses := by
      rw [h3, List.mem_dedup]
      exact List.mem_map_of_mem _ hr
    simp [recordPasses, List.elem_iff, hd, hp, hf]

/-- Witness for C3: the identity filter returns both rows; deselecting
every department returns nothing. -/
theorem filter_engine_spec_witness :
    filteredDf [rowOps, rowIT]
        { departments := ["Ops", "IT"], priorities := ["High", "Low"],
          delayStatuses := ["Delayed", "On-Time"] } = [rowOps, rowIT] ∧
      filteredDf [rowOps, rowIT]
        { departments := [], priorities := ["High", "Low"],
          delayStatuses := ["Delayed", "On-Time"] } = [] := by
  constructor
  · exact (filter_engine_spec [rowOps, rowIT] _).2.2 (by decide) (by decide) (by decide)
  · exact (filter_engine_spec [rowOps, rowIT] _).2.1 (Or.inl rfl)

/-! ### The code-point string order -/

theorem charListLe_refl : ∀ l : List Char, charListLe l l = true
  | [] => rfl
  | a :: as => by
    simp only [charListLe, lt_irrefl a, if_false, reduceIte]
    exact charListLe_refl as

theorem strLe_refl (a : String) : strLe a a = true :=
  charListLe_refl a.data

theorem charListLe_total : ∀ x y : List Char, charListLe x y = true ∨ charListLe y x = true
  | [], _ => Or.inl rfl
  | _ :: _, [] => Or.inr rfl
  | a :: as, b :: bs => by
    rcases lt_trichotomy a b with h | h | h
    · left
      simp [charListLe, h]
    · subst h
      simp only [charListLe, lt_irrefl a, reduceIte]
      exact charListLe_total as bs
    · right
      simp [charListLe, h]

theorem strLe_total (a b : String) : strLe a b = true ∨ strLe b a = true :=
  charListLe_total a.data b.data

theorem charListLe_trans :
    ∀ x y z : List Char, charListLe x y = true → charListLe y z = true →
      charListLe x z = true
  | [], _, _, _, _ => rfl
  | a :: as, [], _, h1, _ => by simp [charListLe] at h1
  | _ :: _, _ :: _, [], _, h2 => by simp [charListLe] at h2
  | a :: as, b :: bs, c :: cs, h1, h2 => by
    simp only [charListLe] at h1 h2 ⊢
    rcases lt_trichotomy a b with hab | hab | hab
    · rcases lt_trichotomy b c with hbc | hbc | hbc
      · rw [if_pos (lt_trans hab hbc)]
      · subst hbc
        rw [if_pos hab]
      · rw [if_neg (asymm hbc), if_pos hbc] at h2
        exact absurd h2 (by simp)
    · subst hab
      rw [if_neg (lt_irrefl a), if_neg (lt_irrefl a)] at h1
      rcases lt_trichotomy a c with hac | hac | hac
      · rw [if_pos hac]
      · subst hac
        rw [if_neg (lt_irrefl a), if_neg (lt_irrefl a)] at h2 ⊢
        exact charListLe_trans as bs cs h1 h2
      · rw [if_neg (asymm hac), if_pos hac] at h2
        exact absurd h2 (by simp)
    · rw [if_neg (asymm hab), if_pos hab] at h1
      exact absurd h1 (by simp)

theorem strLe_trans (a b c : String) (h1 : strLe a b = true) (h2 : strLe b c = true) :
    strLe a c = true :=
  charListLe_trans a.data b.data c.data h1 h2

/-! ### The idxmax scan -/

/-- The idxmax scan returns one of the keys. -/
theorem idxmaxGo_mem (f : String → ℚ) :
    ∀ (ks : List String) (best : String), idxmaxGo f best ks ∈ best :: ks := by
  intro ks
  induction ks with
  | nil =>
    intro best
    simp [idxmaxGo]
  | cons k0 ks ih =>
    intro best
    simp only [idxmaxGo]
    rcases List.mem_cons.mp (ih (if f k0 > f best then k0 else best)) with h1 | h1
    · rw [h1]
      split
      · exact List.mem_cons_of_mem _ (List.mem_cons_self _ _)
      · exact List.mem_cons_self _ _
    · exact List.mem_cons_of_mem _ (List.mem_cons_of_mem _ h1)

/-- Every key value is at most the value at the scan result. -/
theorem idxmaxGo_le (f : String → ℚ) :
    ∀ (ks : List String) (best : String), ∀ k ∈ best :: ks, f k ≤ f (idxmaxGo f best ks) := by
  intro ks
  induction ks with
  | nil =>
    intro best k hk
    rw [List.mem_singleton] at hk
    subst hk
    exact le_refl _
  | cons k0 ks ih =>
    intro best k hk
    simp only [idxmaxGo]
    have hb2 : f best ≤ f (if f k0 > f best then k0 else best) ∧
        f k0 ≤ f (if f k0 > f best then k0 else best) := by
      by_cases h : f k0 > f best
      · rw [if_pos h]
        exact ⟨le_of_lt h, le_refl _⟩
      · rw [if_neg h]
        exact ⟨le_refl _, not_lt.mp h⟩
    have hres : f (if f k0 > f best then k0 else best) ≤
        f (idxmaxGo f (if f k0 > f best then k0 else best) ks) :=
      ih _ _ (List.mem_cons_self _ _)
    rcases List.mem_cons.mp hk with heqk | hk2
    · subst heqk
      exact le_trans hb2.1 hres
    rcases List.mem_cons.mp hk2 with heqk | hk3
    · subst heqk
      exact le_trans hb2.2 hres
    · exact ih _ k (List.mem_cons_of_mem _ hk3)

/-- On an ascending key list the scan result is the least key among
those attaining the maximum: later equal values never replace it. -/
theorem idxmaxGo_first (f : String → ℚ) :
    ∀ (ks : List String) (best : String),
      (best :: ks).Sorted (fun a b : String => strLe a b = true) →
      ∀ k ∈ best :: ks, f k = f (idxmaxGo f best ks) →
        strLe (idxmaxGo f best ks) k = true := by
  intro ks
  induction ks with
  | nil =>
    intro best _ k hk _
    rw [List.mem_singleton] at hk
    subst hk
    exact strLe_refl _
  | cons k0 ks ih =>
    intro best hsort k hk heq
    simp only [idxmaxGo] at heq ⊢
    by_cases h : f k0 > f best
    · rw [if_pos h] at heq ⊢
      have hsort2 : (k0 :: ks).Sorted (fun a b : String => strLe a b = true) := hsort.of_cons
      rcases List.mem_cons.mp hk with heqk | hk2
      · subst heqk
        have hle : f k0 ≤ f (idxmaxGo f k0 ks) :=
          idxmaxGo_le f ks k0 k0 (List.mem_cons_self _ _)
        exact absurd heq (ne_of_lt (lt_of_lt_of_le h hle))
      · exact ih k0 hsort2 k hk2 heq
    · rw [if_neg h] at heq ⊢
      have hsort2 : (best :: ks).Sorted (fun a b : String => strLe a b = true) := by
        refine List.Pairwise.sublist ?_ hsort
        exact List.Sublist.cons₂ best (List.sublist_cons_self k0 ks)
      rcases List.mem_cons.mp hk with heqk | hk2
      · subst heqk
        exact ih k hsort2 k (List.mem_cons_self _ _) heq
      rcases List.mem_cons.mp hk2 with heqk | hk3
      · subst heqk
        have hb : f best ≤ f (idxmaxGo f best ks) :=
          idxmaxGo_le f ks best best (List.mem_cons_self _ _)
        have hbeq : f best = f (idxmaxGo f best ks) :=
          le_antisymm hb (heq ▸ not_lt.mp h)
        have hres : strLe (idxmaxGo f best ks) best = true :=
          ih best hsort2 best (List.mem_cons_self _ _) hbeq
        have hbk : strLe best k = true := (List.sorted_cons.mp hsort).1 k (List.mem_cons_self _ _)
        exact strLe_trans _ _ _ hres hbk
      · exact ih best hsort2 k (List.mem_cons_of_mem _ hk3) heq

/-- Membership in the sorted distinct group keys is membership in the
column. -/
theorem groupKeys_mem {a : String} {col : List String} :
    a ∈ groupKeys col ↔ a ∈ col := by
  unfold groupKeys
  rw [List.mem_insertionSort]
  exact List.mem_dedup

/-- The group keys are in ascending order. -/
theorem groupKeys_sorted (col : List String) :
    (groupKeys col).Sorted (fun a b : String => strLe a b = true) := by
  haveI : IsTotal String fun a b => strLe a b = true := ⟨strLe_total⟩
  haveI : IsTrans String fun a b => strLe a b = true := ⟨strLe_trans⟩
  exact List.sorted_insertionSort _ _

/-- Series.idxmax on a non-empty series with ascending keys: it is
defined, attains the maximum value, and ties go to the least key. -/
theorem idxmaxBy_spec (f : String → ℚ) (keys : List String)
    (hs : keys.Sorted (fun a b : String => strLe a b = true)) (k : String) (hk : k ∈ keys) :
    ∃ b, idxmaxBy f keys = some b ∧ b ∈ keys ∧ (∀ x ∈ keys, f x ≤ f b) ∧
      ∀ x ∈ keys, f x = f b → strLe b x = true := by
  cases keys with
  | nil => cases hk
  | cons k0 ks =>
    exact ⟨idxmaxGo f k0 ks, rfl, idxmaxGo_mem f ks k0, idxmaxGo_le f ks k0,
      idxmaxGo_first f ks k0 hs⟩

/-- Rule 2 finds a department on every non-empty frame. -/
theorem highCostDept_attains (rs : List Record) (hne : rs ≠ []) :
    ∃ dept, highCostDept rs = some dept ∧
      dept ∈ groupKeys (rs.map fun r => r.department) ∧
      (∀ d ∈ groupKeys (rs.map fun r => r.department),
        deptMeanCost rs d ≤ deptMeanCost rs dept) ∧
      ∀ d ∈ groupKeys (rs.map fun r => r.department),
        deptMeanCost rs d = deptMeanCost rs dept → strLe dept d = true := by
  obtain ⟨r, hr⟩ := List.exists_mem_of_ne_nil rs hne
  have hk : r.department ∈ groupKeys (rs.map fun x => x.department) :=
    groupKeys_mem.mpr (List.mem_map_of_mem _ hr)
  exact idxmaxBy_spec _ _ (groupKeys_sorted _) _ hk

/-- Rule 3 finds an employee on every non-empty frame. -/
theorem overloadedEmp_attains (rs : List Record) (hne : rs ≠ []) :
    ∃ emp, overloadedEmp rs = some emp ∧
      emp ∈ groupKeys (rs.map fun r => r.assignedEmployee) ∧
      (∀ e ∈ groupKeys (rs.map fun r => r.assignedEmployee),
        employeeTotalDuration rs e ≤ employeeTotalDuration rs emp) ∧
      ∀ e ∈ groupKeys (rs.map fun r => r.assignedEmployee),
        employeeTotalDuration rs e = employeeTotalDuration rs emp → strLe emp e = true := by
  obtain ⟨r, hr⟩ := List.exists_mem_of_ne_nil rs hne
  have hk : r.assignedEmployee ∈ groupKeys (rs.map fun x => x.assignedEmployee) :=
    groupKeys_mem.mpr (List.mem_map_of_mem _ hr)
  exact idxmaxBy_spec _ _ (groupKeys_sorted _) _ hk

/-- The insight list once rules 2 and 3 have found their targets. -/
theorem generateInsights_eq (rs : List Record) (dept emp : String)
    (hd : highCostDept rs = some dept) (he : overloadedEmp rs = some emp) :
    generateInsights rs = Except.ok
      ((if rule1Fires rs then [rule1Msg] else []) ++ [rule2Msg dept] ++
        [rule3Msg emp] ++ (if rule4Fires rs then [rule4Msg] else [])) := by
  unfold generateInsights
  rw [hd, he]

/-- Concatenation of strings concatenates their character lists. -/
theorem string_data_append (s t : String) : (s ++ t).data = s.data ++ t.data := by
  cases s
  cases t
  rfl

/-- The rule 2 message is marked by its leading money-bag character. -/
theorem rule2Msg_head (d : String) : (rule2Msg d).data.head? = some '💰' := by
  rw [rule2Msg, string_data_append, string_data_append]
  rfl

/-- The rule 3 message is marked by its leading worker character. -/
theorem rule3Msg_head (e : String) : (rule3Msg e).data.head? = some '👨' := by
  rw [rule3Msg, string_data_append, string_data_append]
  rfl

/-- The rule 1 warning is marked by its leading warning sign. -/
theorem rule1Msg_head : rule1Msg.data.head? = some '⚠' := rfl

/-- The rule 4 warning is marked by its leading siren character. -/
theorem rule4Msg_head : rule4Msg.data.head? = some '🚨' := rfl

/-- C1: on the empty filtered set the Insight Engine does not return
normally with rules 2 and 3 skipped; rule 2 calls Series.idxmax on an
empty series and the uncaught ValueError aborts the engine. -/
theorem generateInsights_empty_raises :
    generateInsights ([] : List Record) =
      Except.error "attempt to get argmax of an empty sequence" := rfl

/-- C7: on every non-empty filtered frame rule 2 emits one
recommendation naming the department whose mean cost per task is
maximal over the department groups, ties going to the alphabetically
first such department. -/
theorem rule2_highest_cost_dept (rs : List Record) (hne : rs ≠ []) :
    ∃ dept, highCostDept rs = some dept ∧
      dept ∈ groupKeys (rs.map fun r => r.department) ∧
      (∀ d ∈ groupKeys (rs.map fun r => r.department),
        deptMeanCost rs d ≤ deptMeanCost rs dept) ∧
      (∀ d ∈ groupKeys (rs.map fun r => r.department),
        deptMeanCost rs d = deptMeanCost rs dept → strLe dept d = true) ∧
      ∃ out, generateInsights rs = Except.ok out ∧ rule2Msg dept ∈ out := by
  obtain ⟨dept, hd, hmem, hmax, hfirst⟩ := highCostDept_attains rs hne
  obtain ⟨emp, he, _, _, _⟩ := overloadedEmp_attains rs hne
  refine ⟨dept, hd, hmem, hmax, hfirst, _, generateInsights_eq rs dept emp hd he, ?_⟩
  simp

/-- Witness for C7 on the two-row example: Ops at cost 10 and IT at
cost 50; the engine names IT. -/
theorem rule2_highest_cost_dept_witness :
    highCostDept [rowOps, mkRow "IT" "Low" "B" "On-Time" 50 0 86400] = some "IT" ∧
      (∃ dept, highCostDept [rowOps, mkRow "IT" "Low" "B" "On-Time" 50 0 86400] = some dept ∧
        dept ∈ groupKeys ([rowOps, mkRow "IT" "Low" "B" "On-Time" 50 0 86400].map
          fun r => r.department) ∧
        (∀ d ∈ groupKeys ([rowOps, mkRow "IT" "Low" "B" "On-Time" 50 0 86400].map
          fun r => r.department),
          deptMeanCost [rowOps, mkRow "IT" "Low" "B" "On-Time" 50 0 86400] d ≤
            deptMeanCost [rowOps, mkRow "IT" "Low" "B" "On-Time" 50 0 86400] dept) ∧
        (∀ d ∈ groupKeys ([rowOps, mkRow "IT" "Low" "B" "On-Time" 50 0 86400].map
          fun r => r.department),
          deptMeanCost [rowOps, mkRow "IT" "Low" "B" "On-Time" 50 0 86400] d =
            deptMeanCost [rowOps, mkRow "IT" "Low" "B" "On-Time" 50 0 86400] dept →
              strLe dept d = true) ∧
        ∃ out, generateInsights [rowOps, mkRow "IT" "Low" "B" "On-Time" 50 0 86400] =
          Except.ok out ∧ rule2Msg dept ∈ out) :=
  ⟨by with_unfolding_all decide,
    rule2_highest_cost_dept [rowOps, mkRow "IT" "Low" "B" "On-Time" 50 0 86400] (by decide)⟩

/-- C10: on every non-empty filtered frame the engine returns between
two and four strings; the rule 2 and rule 3 recommendations, marked by
their distinctive leading characters, occur exactly once each, and the
rule 1 and rule 4 warnings occur at most once each. -/
theorem generateInsights_nonempty_counts (rs : List Record) (hne : rs ≠ []) :
    ∃ out, generateInsights rs = Except.ok out ∧
      2 ≤ out.length ∧ out.length ≤ 4 ∧
      out.countP (fun s => s.data.head? == some '💰') = 1 ∧
      out.countP (fun s => s.data.head? == some '👨') = 1 ∧
      out.countP (fun s => s.data.head? == some '⚠') ≤ 1 ∧
      out.countP (fun s => s.data.head? == some '🚨') ≤ 1 := by
  obtain ⟨dept, hd, _, _, _⟩ := highCostDept_attains rs hne
  obtain ⟨emp, he, _, _, _⟩ := overloadedEmp_attains rs hne
  refine ⟨_, generateInsights_eq rs dept emp hd he, ?_⟩
  cases h1 : rule1Fires rs <;> cases h4 : rule4Fires rs <;>
    simp [List.countP_cons, List.countP_append, rule2Msg_head, rule3Msg_head,
      rule1Msg_head, rule4Msg_head]

/-- Witness for C10 on a one-row frame. -/
theorem generateInsights_nonempty_counts_witness :
    ∃ out, generateInsights [rowOps] = Except.ok out ∧
      2 ≤ out.length ∧ out.length ≤ 4 ∧
      out.countP (fun s => s.data.head? == some '💰') = 1 ∧
      out.countP (fun s => s.data.head? == some '👨') = 1 ∧
      out.countP (fun s => s.data.head? == some '⚠') ≤ 1 ∧
      out.countP (fun s => s.data.head? == some '🚨') ≤ 1 :=
  generateInsights_nonempty_counts [rowOps] (by decide)

/-! ### The digit-run scanner -/

/-- The element after a dropped prefix fails the predicate. -/
theorem head_dropWhile_not (p : Char → Bool) :
    ∀ l : List Char, ∀ c ∈ (l.dropWhile p).head?, p c = false := by
  intro l
  induction l with
  | nil =>
    intro c hc
    cases hc
  | cons x xs ih =>
    intro c hc
    rw [List.dropWhile_cons] at hc
    by_cases hx : p x
    · rw [if_pos hx] at hc
      exact ih c hc
    · rw [if_neg hx] at hc
      rw [List.head?_cons, Option.mem_def, Option.some.injEq] at hc
      subst hc
      exact Bool.not_eq_true _ ▸ hx

/-- No digit run at all means no digit character at all. -/
theorem digitRuns_eq_nil_iff :
    ∀ l : List Char, digitRuns l = [] ↔ ∀ c ∈ l, isReDigit c = false := by
  intro l
  induction l with
  | nil => simp [digitRuns]
  | cons c cs ih =>
    simp only [digitRuns]
    by_cases hc : isReDigit c
    · rw [if_pos hc]
      constructor
      · intro h
        cases h
      · intro h
        have := h c (List.mem_cons_self _ _)
        rw [hc] at this
        cases this
    · rw [if_neg hc, ih]
      constructor
      · intro h d hd
        rcases List.mem_cons.mp hd with heqd | hd2
        · subst heqd
          exact Bool.not_eq_true _ ▸ hc
        · exact h d hd2
      · intro h d hd
        exact h d (List.mem_cons_of_mem _ hd)

/-- The first digit run is preceded only by non-digits, is a non-empty
all-digit block, and is maximal: the character after it, when any, is
not a digit. -/
theorem digitRuns_head_spec :
    ∀ l : List Char, ∀ run, (digitRuns l).head? = some run →
      ∃ pre post, l = pre ++ run ++ post ∧ (∀ c ∈ pre, isReDigit c = false) ∧
        run ≠ [] ∧ (∀ c ∈ run, isReDigit c = true) ∧
        ∀ c ∈ post.head?, isReDigit c = false := by
  intro l
  induction l with
  | nil =>
    intro run h
    simp only [digitRuns] at h
    cases h
  | cons c cs ih =>
    intro run h
    simp only [digitRuns] at h
    by_cases hc : isReDigit c
    · rw [if_pos hc, List.head?_cons, Option.some.injEq] at h
      subst h
      refine ⟨[], cs.dropWhile isReDigit, ?_, ?_, ?_, ?_, ?_⟩
      · rw [List.nil_append, List.cons_append, List.takeWhile_append_dropWhile]
      · intro d hd
        cases hd
      · exact List.cons_ne_nil _ _
      · intro d hd
        rcases List.mem_cons.mp hd with heqd | hd2
        · subst heqd
          exact hc
        · exact List.all_eq_true.mp List.all_takeWhile d hd2
      · exact head_dropWhile_not _ cs
    · rw [if_neg hc] at h
      obtain ⟨pre, post, heq, hpre, hne, hdig, hpost⟩ := ih run h
      refine ⟨c :: pre, post, ?_, ?_, hne, hdig, hpost⟩
      · rw [heq]
        rfl
      · intro d hd
        rcases List.mem_cons.mp hd with heqd | hd2
        · subst heqd
          exact Bool.not_eq_true _ ▸ hc
        · exact hpre d hd2

/-- C8 counterexample: an Assigned_Employee value holding Arabic-Indic
digits has no ASCII decimal digit, so the claim as stated demands a
null identifier; the regular expression matches the Unicode digits and
the code extracts them. -/
theorem employeeId_ascii_counterexample :
    (∀ c ∈ ("Lena_٤٢" : String).data, c.isDigit = false) ∧
      extractEmployeeId "Lena_٤٢" = some "٤٢" := by
  constructor
  · decide
  · have hdata : ("Lena_٤٢" : String).data = ['L', 'e', 'n', 'a', '_', '٤', '٢'] := rfl
    rw [extractEmployeeId, hdata]
    simp +decide [digitRuns, List.takeWhile_cons, List.dropWhile_cons]

/-- C8 amended: Employee_ID_Number is the first maximal run of Unicode
decimal digits (the digit class of the regular expression, not only
ASCII) of Assigned_Employee scanned left to right, and null when the
string holds no such digit; later runs are ignored. -/
theorem employeeId_first_digit_run (s : String) :
    (extractEmployeeId s = none ↔ ∀ c ∈ s.data, isReDigit c = false) ∧
    ∀ t, extractEmployeeId s = some t →
      ∃ pre post, s.data = pre ++ t.data ++ post ∧
        (∀ c ∈ pre, isReDigit c = false) ∧ t.data ≠ [] ∧
        (∀ c ∈ t.data, isReDigit c = true) ∧
        ∀ c ∈ post.head?, isReDigit c = false := by
  constructor
  · rw [extractEmployeeId, Option.map_eq_none', List.head?_eq_none_iff]
    exact digitRuns_eq_nil_iff s.data
  · intro t ht
    rw [extractEmployeeId, Option.map_eq_some'] at ht
    obtain ⟨run, hrun, hmk⟩ := ht
    have hdata : t.data = run := by
      rw [← hmk]
    exact hdata ▸ digitRuns_head_spec s.data run hrun

/-- Witness for C8: the identifier of John_42x7 is 42; the second run
is ignored, and a digit-free name gives null. -/
theorem employeeId_first_digit_run_witness :
    extractEmployeeId "John_42x7" = some "42" ∧
      extractEmployeeId "NoDigits" = none ∧
      (∃ pre post, ("John_42x7" : String).data = pre ++ ("42" : String).data ++ post ∧
        (∀ c ∈ pre, isReDigit c = false) ∧ ("42" : String).data ≠ [] ∧
        (∀ c ∈ ("42" : String).data, isReDigit c = true) ∧
        ∀ c ∈ post.head?, isReDigit c = false) ∧
      (∀ c ∈ ("NoDigits" : String).data, isReDigit c = false) := by
  have h42 : extractEmployeeId "John_42x7" = some "42" := by
    have hdata : ("John_42x7" : String).data = ['J', 'o', 'h', 'n', '_', '4', '2', 'x', '7'] := rfl
    rw [extractEmployeeId, hdata]
    simp +decide [digitRuns, List.takeWhile_cons, List.dropWhile_cons]
  have hnone : extractEmployeeId "NoDigits" = none := by
    have hdata : ("NoDigits" : String).data = ['N', 'o', 'D', 'i', 'g', 'i', 't', 's'] := rfl
    rw [extractEmployeeId, hdata]
    simp +decide [digitRuns, List.takeWhile_cons, List.dropWhile_cons]
  exact ⟨h42, hnone, (employeeId_first_digit_run "John_42x7").2 "42" h42,
    (employeeId_first_digit_run "NoDigits").1.mp hnone⟩

/-! ### The trend table -/

/-- Lookup in an association list built by pairing each key with a
value computed from it. -/
theorem lookup_map_pair {α β : Type} [BEq α] [LawfulBEq α] (g : α → β) :
    ∀ (l : List α) (d : α), d ∈ l →
      (l.map fun x => (x, g x)).lookup d = some (g d) := by
  intro l
  induction l with
  | nil =>
    intro d hd
    cases hd
  | cons x xs ih =>
    intro d hd
    by_cases h : d = x
    · subst h
      simp [List.lookup]
    · have hne : (d == x) = false := beq_eq_false_iff_ne.mpr h
      simp only [List.map_cons, List.lookup, hne]
      exact ih d ((List.mem_cons.mp hd).resolve_left h)

/-- C9 counterexample: with a single Delayed row the unstacked trend
table has no On-Time column at all, while the claim demands that the
On-Time key be present with count zero on every date row. -/
theorem trend_missing_flag_counterexample :
    trendDf [rowOps] = [(0, [("Delayed", 1)])] ∧
      ∀ row ∈ trendDf [rowOps], row.2.lookup "On-Time" = none := by
  exact ⟨by decide, by decide⟩

/-- C9 amended: the trend table has one row per distinct date present
and one column per distinct delay-flag value present anywhere in the
filtered frame (only those, not always both Delayed and On-Time); each
date and each present flag value meet in an entry holding the exact
count of matching rows, zero included. -/
theorem trendDf_lookup (rs : List Record) :
    (∀ r ∈ rs, dateOf r ∈ groupKeysNat (rs.map dateOf) ∧
      r.delayFlag ∈ groupKeys (rs.map fun x => x.delayFlag)) ∧
    ∀ d ∈ groupKeysNat (rs.map dateOf),
      ∀ f ∈ groupKeys (rs.map fun x => x.delayFlag),
        ∃ row, (trendDf rs).lookup d = some row ∧
          row.lookup f = some (trendCell rs d f) := by
  constructor
  · intro r hr
    constructor
    · unfold groupKeysNat
      rw [List.mem_insertionSort, List.mem_dedup]
      exact List.mem_map_of_mem _ hr
    · exact groupKeys_mem.mpr (List.mem_map_of_mem _ hr)
  · intro d hd f hf
    unfold trendDf
    refine ⟨_, lookup_map_pair _ _ d hd, ?_⟩
    exact lookup_map_pair (fun f => trendCell rs d f) _ f hf

/-- Witness for C9 on two rows over two dates: date 0 carries an
On-Time entry with count zero because On-Time occurs on date 1. -/
theorem trendDf_lookup_witness :
    (∃ row, (trendDf [rowOps, rowIT]).lookup 0 = some row ∧
      row.lookup "On-Time" = some (trendCell [rowOps, rowIT] 0 "On-Time")) ∧
      trendCell [rowOps, rowIT] 0 "On-Time" = 0 :=
  ⟨(trendDf_lookup [rowOps, rowIT]).2 0 (by decide) "On-Time" (by decide), by decide⟩

/-! ### The workload ranking -/

/-- The value order underlying the ascending workload sort implies a
value inequality. -/
theorem lex_snd_le {x y : String × ℚ}
    (h : x.2 < y.2 ∨ (x.2 = y.2 ∧ strLe x.1 y.1 = true)) : x.2 ≤ y.2 := by
  rcases h with h | ⟨h, _⟩
  · exact le_of_lt h
  · exact le_of_eq h

/-- Inserting a pair whose key precedes every key of an
ascending-by-value, key-compatible list keeps the list sorted by value
with key ties in key order: the stability of the ascending sort. -/
theorem orderedInsert_pair_sorted (a : String × ℚ) :
    ∀ s : List (String × ℚ),
      s.Pairwise (fun x y => x.2 < y.2 ∨ (x.2 = y.2 ∧ strLe x.1 y.1 = true)) →
      (∀ b ∈ s, strLe a.1 b.1 = true) →
      (List.orderedInsert (fun x y => x.2 ≤ y.2) a s).Pairwise
        (fun x y => x.2 < y.2 ∨ (x.2 = y.2 ∧ strLe x.1 y.1 = true)) := by
  intro s
  induction s with
  | nil =>
    intro _ _
    exact List.pairwise_singleton _ _
  | cons b t ih =>
    intro hp hfst
    simp only [List.orderedInsert]
    by_cases h : a.2 ≤ b.2
    · rw [if_pos h]
      rw [List.pairwise_cons]
      refine ⟨?_, hp⟩
      intro x hx
      rcases List.mem_cons.mp hx with heqx | hx2
      · subst heqx
        rcases lt_or_eq_of_le h with h2 | h2
        · exact Or.inl h2
        · exact Or.inr ⟨h2, hfst x (List.mem_cons_self _ _)⟩
      · have hbx : b.2 ≤ x.2 := lex_snd_le ((List.pairwise_cons.mp hp).1 x hx2)
        rcases lt_or_eq_of_le (le_trans h hbx) with h2 | h2
        · exact Or.inl h2
        · exact Or.inr ⟨h2, hfst x (List.mem_cons_of_mem _ hx2)⟩
    · rw [if_neg h]
      rw [List.pairwise_cons]
      constructor
      · intro x hx
        rcases (List.mem_orderedInsert _).mp hx with heqx | hx2
        · subst heqx
          exact Or.inl (not_le.mp h)
        · exact (List.pairwise_cons.mp hp).1 x hx2
      · exact ih (List.pairwise_cons.mp hp).2
          (fun c hc => hfst c (List.mem_cons_of_mem _ hc))

/-- Sorting a key-ascending list by value ascends by value with key
ties kept in ascending key order. -/
theorem insertionSort_pair_sorted :
    ∀ l : List (String × ℚ), l.Pairwise (fun x y => strLe x.1 y.1 = true) →
      (List.insertionSort (fun x y => x.2 ≤ y.2) l).Pairwise
        (fun x y => x.2 < y.2 ∨ (x.2 = y.2 ∧ strLe x.1 y.1 = true)) := by
  intro l
  induction l with
  | nil =>
    intro _
    exact List.Pairwise.nil
  | cons a t ih =>
    intro hp
    simp only [List.insertionSort]
    refine orderedInsert_pair_sorted a _ (ih (List.pairwise_cons.mp hp).2) ?_
    intro b hb
    exact (List.pairwise_cons.mp hp).1 b ((List.mem_insertionSort _).mp hb)

/-- The grouped workload rows come out with keys in ascending order. -/
theorem workloadDf_fst_pairwise (rs : List Record) :
    (workloadDf rs).Pairwise (fun x y => strLe x.1 y.1 = true) := by
  unfold workloadDf
  rw [List.pairwise_map]
  exact groupKeys_sorted _

/-- The descending workload table: values descend, and value ties keep
the reversed key order, hence descending keys. -/
theorem sortByDurationDesc_pairwise (rs : List Record) :
    (sortByDurationDesc (workloadDf rs)).Pairwise
      (fun x y => y.2 < x.2 ∨ (y.2 = x.2 ∧ strLe y.1 x.1 = true)) := by
  unfold sortByDurationDesc
  rw [List.pairwise_reverse]
  exact insertionSort_pair_sorted _ (workloadDf_fst_pairwise rs)

/-- Membership in the descending workload table is membership in the
grouped table. -/
theorem sortByDurationDesc_mem {p : String × ℚ} {rs : List Record} :
    p ∈ sortByDurationDesc (workloadDf rs) ↔ p ∈ workloadDf rs := by
  unfold sortByDurationDesc
  rw [List.mem_reverse]
  exact List.mem_insertionSort _

/-- C6 counterexample: employees A and B with equal totals 30; the
descending sort reverses the ascending pass, so head(1) names B, not
the employee-ascending tie-break A that the claim states. -/
theorem workload_tie_counterexample :
    workloadByEmployee [rowA30, rowB30] 1 = [("B", 30)] ∧
      workloadByEmployee [rowA30, rowB30] 1 ≠ [("A", 30)] ∧
      employeeTotalDuration [rowA30, rowB30] "A" =
        employeeTotalDuration [rowA30, rowB30] "B" := by
  refine ⟨?_, ?_, ?_⟩ <;> with_unfolding_all decide

/-- C6 amended: workload_by_employee(top_n) lists the top_n employees
by descending summed actual duration, value ties carrying the
descending employee order that reversing the ascending sort leaves; it
lists rows of the grouped table, every listed total at least every
omitted total, and exactly min(top_n, distinct employees) rows. -/
theorem workloadByEmployee_top_desc (rs : List Record) (n : Nat) :
    (workloadByEmployee rs n).Pairwise
      (fun x y => y.2 < x.2 ∨ (y.2 = x.2 ∧ strLe y.1 x.1 = true)) ∧
    (∀ p ∈ workloadByEmployee rs n, p ∈ workloadDf rs) ∧
    (∀ p ∈ workloadByEmployee rs n, ∀ q ∈ workloadDf rs,
      q ∉ workloadByEmployee rs n → q.2 ≤ p.2) ∧
    (workloadByEmployee rs n).length = min n (workloadDf rs).length := by
  have hpair := sortByDurationDesc_pairwise rs
  refine ⟨?_, ?_, ?_, ?_⟩
  · exact List.Pairwise.sublist (List.take_sublist _ _) hpair
  · intro p hp
    exact sortByDurationDesc_mem.mp ((List.take_sublist _ _).mem hp)
  · intro p hp q hq hnq
    have hqL : q ∈ sortByDurationDesc (workloadDf rs) := sortByDurationDesc_mem.mpr hq
    have hsplit := List.take_append_drop n (sortByDurationDesc (workloadDf rs))
    have hqdrop : q ∈ (sortByDurationDesc (workloadDf rs)).drop n := by
      rcases List.mem_append.mp (hsplit ▸ hqL) with h | h
      · exact absurd h hnq
      · exact h
    have hpairsplit := hsplit ▸ hpair
    have := (List.pairwise_append.mp hpairsplit).2.2 p hp q hqdrop
    rcases this with h | ⟨h, _⟩
    · exact le_of_lt h
    · exact le_of_eq h
  · unfold workloadByEmployee
    rw [List.length_take]
    unfold sortByDurationDesc
    rw [List.length_reverse, List.length_insertionSort]

/-- Witness for C6 on the three-employee example with totals A 30,
B 50, C 10: the top two are B then A. -/
theorem workloadByEmployee_top_desc_witness :
    ((workloadByEmployee [rowA30, rowB50, rowC10] 2).Pairwise
      (fun x y => y.2 < x.2 ∨ (y.2 = x.2 ∧ strLe y.1 x.1 = true)) ∧
    (∀ p ∈ workloadByEmployee [rowA30, rowB50, rowC10] 2,
      p ∈ workloadDf [rowA30, rowB50, rowC10]) ∧
    (∀ p ∈ workloadByEmployee [rowA30, rowB50, rowC10] 2,
      ∀ q ∈ workloadDf [rowA30, rowB50, rowC10],
        q ∉ workloadByEmployee [rowA30, rowB50, rowC10] 2 → q.2 ≤ p.2) ∧
    (workloadByEmployee [rowA30, rowB50, rowC10] 2).length =
      min 2 (workloadDf [rowA30, rowB50, rowC10]).length) ∧
      workloadByEmployee [rowA30, rowB50, rowC10] 2 = [("B", 50), ("A", 30)] :=
  ⟨workloadByEmployee_top_desc [rowA30, rowB50, rowC10] 2, by with_unfolding_all decide⟩
